import Mathlib

/-!
# Verification of the keyed image-steganography core (`steganography.py`)

Shallow embedding of the repository's single source file.  Pixels are lists of
channel bytes (`List Nat`), a pixel grid is a function from coordinates to a
pixel, bit strings (Python strings of `'0'`/`'1'`) are `List Bool` (MSB first),
and Python text is a list of Unicode scalar values (`List Nat`).

Python's `random.seed`/`random.sample` (a deterministic, seed-keyed
Fisher-Yates-equivalent selection without replacement) is modelled by a
concrete deterministic generator (`lcg`): every property the program relies on
— determinism of the stream and that a full-length sample is a permutation —
is shared by the model.  `secrets.token_hex`-seeded noise (`generate_numbers`)
is modelled by an arbitrary bit oracle passed as a parameter, since the source
draws it from a fresh entropy source.
-/

/-! ## Deterministic pseudo-random generator model -/

/-- One step of the deterministic generator standing in for Python's
Mersenne-Twister stream (64-bit linear-congruential step). -/
def lcg (s : Nat) : Nat :=
  (6364136223846793005 * s + 1442695040888963407) % 18446744073709551616

/-- Model of `random.seed(key)`: the initial generator state derived from the
(arbitrarily large) integer key. -/
def pyInit (key : Nat) : Nat :=
  lcg (key % 18446744073709551616)

/-- Remove the element at index `i` from a list, returning it together with
the remaining list (default `d` out of range).  One pass, so that the
evaluation of a sampled sequence stays linear. -/
def pickAt : Nat → List α → α → α × List α
  | _, [], d => (d, [])
  | 0, p :: ps, _ => (p, ps)
  | i + 1, p :: ps, d =>
    match pickAt i ps d with
    | (x, rest) => (x, p :: rest)

/-- Model of drawing `k` elements without replacement from `pool`
(Fisher-Yates-equivalent, as `random.sample(pool, k)`).  The pool length `n`
is threaded along so each step computes its selection index directly. -/
def sampleK : Nat → Nat → List α → Nat → List α
  | 0, _, _, _ => []
  | _ + 1, _, [], _ => []
  | k + 1, s, p :: ps, n =>
    (pickAt ((lcg s) % n) (p :: ps) p).1
      :: sampleK k (lcg s) (pickAt ((lcg s) % n) (p :: ps) p).2 (n - 1)

/-- `shuffle(key, data)` (src line 35): seed the generator with `key`, then
sample the whole list without replacement. -/
def shuffle (key : Nat) (data : List α) : List α :=
  sampleK data.length (pyInit key) data data.length

/-- Stream of single-element samples, state threaded through the calls, as the
list comprehension in `random_sample` produces. -/
def random_sample_go (s : Nat) (options : List α) : Nat → List (List α)
  | 0 => []
  | n + 1 =>
    let s' := lcg s
    (match options with
     | [] => []
     | o :: os => [(o :: os).getD (s' % (o :: os).length) o]) ::
      random_sample_go s' options n

/-- `random_sample(key, options, length)` (src line 68): seed once with `key`,
then `length` draws of one element each. -/
def random_sample (key : Nat) (options : List α) (length : Nat) : List (List α) :=
  random_sample_go (pyInit key) options length

/-! ## Binary strings and integers -/

/-- `n`-character binary string of `v`, most-significant bit first. -/
def toBitsLen : Nat → Nat → List Bool
  | 0, _ => []
  | n + 1, v => toBitsLen n (v / 2) ++ [decide (v % 2 = 1)]

/-- Number of binary digits of `n` (`0` for `n = 0`), computed with explicit
fuel so that it reduces definitionally. -/
def bitLenAux : Nat → Nat → Nat
  | 0, _ => 0
  | fuel + 1, n => if n = 0 then 0 else bitLenAux fuel (n / 2) + 1

/-- Python `int.bit_length`. -/
def bitLen (n : Nat) : Nat := bitLenAux n n

/-- Python `bin(n)[2:]` / `bin(n).replace('0b','')`: the binary digits of `n`,
MSB first, with `bin(0) = "0"`. -/
def pyBin (n : Nat) : List Bool := toBitsLen (max 1 (bitLen n)) n

/-- Python `str.zfill(k)` on a binary string: left-pad with `'0'` to width at
least `k`. -/
def zfill (k : Nat) (l : List Bool) : List Bool :=
  List.replicate (k - l.length) false ++ l

/-- `integer_conversion(data, 'binary')` (src line 74): `bin(data)` zero-filled
to 8 characters. -/
def integer_bin (n : Nat) : List Bool := zfill 8 (pyBin n)

/-- `integer_conversion(data, 'integer')`, i.e. `int(data, 2)` on a binary
string. -/
def int_from_bits (l : List Bool) : Nat :=
  l.foldl (fun a b => 2 * a + (if b then 1 else 0)) 0

/-! ### Lemmas about binary strings -/

theorem toBitsLen_length (n v : Nat) : (toBitsLen n v).length = n := by
  induction n generalizing v with
  | zero => rfl
  | succ n ih => simp [toBitsLen, ih]

theorem zfill_length (k : Nat) (l : List Bool) :
    (zfill k l).length = max k l.length := by
  simp [zfill]
  omega

theorem int_from_bits_from (l : List Bool) (a : Nat) :
    l.foldl (fun a b => 2 * a + (if b then 1 else 0)) a
      = a * 2 ^ l.length + int_from_bits l := by
  induction l generalizing a with
  | nil => simp [int_from_bits]
  | cons b t ih =>
    simp only [List.foldl_cons]
    rw [ih (2 * a + (if b then 1 else 0))]
    have h2 : int_from_bits (b :: t)
        = (if b then 1 else 0) * 2 ^ t.length + int_from_bits t := by
      simp only [int_from_bits, List.foldl_cons]
      rw [ih (2 * 0 + (if b then 1 else 0))]
      simp only [int_from_bits]
      ring_nf
    rw [h2, List.length_cons, pow_succ]
    ring

theorem int_from_bits_append (l1 l2 : List Bool) :
    int_from_bits (l1 ++ l2) = int_from_bits l1 * 2 ^ l2.length + int_from_bits l2 := by
  simp only [int_from_bits, List.foldl_append]
  rw [int_from_bits_from l2 (l1.foldl _ 0)]
  rfl

theorem int_from_bits_lt (l : List Bool) : int_from_bits l < 2 ^ l.length := by
  induction l using List.reverseRecOn with
  | nil => simp [int_from_bits]
  | append_singleton t b ih =>
    have hb : int_from_bits [b] ≤ 1 := by
      cases b <;> simp [int_from_bits]
    have h1 : ((t ++ [b]).length) = t.length + 1 := by simp
    have h3 : ([b] : List Bool).length = 1 := rfl
    rw [int_from_bits_append, h1, h3, pow_one, pow_succ]
    omega

theorem int_from_bits_toBitsLen (n v : Nat) (h : v < 2 ^ n) :
    int_from_bits (toBitsLen n v) = v := by
  induction n generalizing v with
  | zero =>
    simp only [pow_zero, Nat.lt_one_iff] at h
    subst h
    rfl
  | succ n ih =>
    rw [toBitsLen, int_from_bits_append]
    have hd : v / 2 < 2 ^ n := by
      rw [pow_succ] at h
      omega
    rw [ih (v / 2) hd]
    have h1 : ([decide (v % 2 = 1)] : List Bool).length = 1 := rfl
    have h2 : int_from_bits [decide (v % 2 = 1)] = v % 2 := by
      rcases Nat.mod_two_eq_zero_or_one v with hm | hm <;> simp [int_from_bits, hm]
    rw [h1, h2, pow_one]
    omega

theorem toBitsLen_int_from_bits (l : List Bool) :
    toBitsLen l.length (int_from_bits l) = l := by
  induction l using List.reverseRecOn with
  | nil => rfl
  | append_singleton t b ih =>
    have h1 : ((t ++ [b]).length) = t.length + 1 := by simp
    have hl : ([b] : List Bool).length = 1 := rfl
    have hb : int_from_bits [b] = if b then 1 else 0 := by
      cases b <;> rfl
    rw [h1, int_from_bits_append, toBitsLen, hl, pow_one, hb]
    have h2 : (int_from_bits t * 2 + if b then 1 else 0) / 2 = int_from_bits t := by
      cases b
      · simp only [Bool.false_eq_true, if_false]
        omega
      · simp only [if_true]
        omega
    have h3 : decide ((int_from_bits t * 2 + if b then 1 else 0) % 2 = 1) = b := by
      cases b
      · simp only [Bool.false_eq_true, if_false, decide_eq_false_iff_not]
        omega
      · simp only [if_true, decide_eq_true_eq]
        omega
    rw [h2, h3, ih]

theorem bitLenAux_le_iff (fuel n k : Nat) (hf : n ≤ fuel) :
    bitLenAux fuel n ≤ k ↔ n < 2 ^ k := by
  induction fuel generalizing n k with
  | zero =>
    have hn : n = 0 := Nat.le_zero.mp hf
    subst hn
    simp only [bitLenAux, Nat.zero_le, true_iff]
    exact Nat.two_pow_pos k
  | succ fuel ih =>
    by_cases h0 : n = 0
    · subst h0
      have hz : bitLenAux (fuel + 1) 0 = 0 := by simp [bitLenAux]
      rw [hz]
      simp only [Nat.zero_le, true_iff]
      exact Nat.two_pow_pos k
    · have hrec : bitLenAux (fuel + 1) n = bitLenAux fuel (n / 2) + 1 := by
        simp [bitLenAux, h0]
      rw [hrec]
      cases k with
      | zero =>
        simp only [pow_zero]
        omega
      | succ k =>
        have hf2 : n / 2 ≤ fuel := by omega
        rw [Nat.succ_le_succ_iff, ih (n / 2) k hf2, pow_succ]
        omega

theorem bitLen_le_iff (n k : Nat) : bitLen n ≤ k ↔ n < 2 ^ k :=
  bitLenAux_le_iff n n k (le_refl n)

/-! ### The shuffle model is a permutation -/

theorem pickAt_perm (i : Nat) (l : List α) (d : α) (h : i < l.length) :
    List.Perm l ((pickAt i l d).1 :: (pickAt i l d).2) := by
  induction i generalizing l with
  | zero =>
    match l, h with
    | p :: ps, _ => exact List.Perm.refl _
  | succ i ih =>
    match l, h with
    | p :: ps, h =>
      have hps : i < ps.length := by
        simp only [List.length_cons] at h
        omega
      have hrec := ih ps hps
      rcases hpk : pickAt i ps d with ⟨x, rest⟩
      rw [hpk] at hrec
      have hred : pickAt (i + 1) (p :: ps) d = (x, p :: rest) := by
        rw [pickAt, hpk]
      rw [hred]
      exact (hrec.cons p).trans (List.Perm.swap x p rest)

theorem pickAt_length (i : Nat) (l : List α) (d : α) (h : i < l.length) :
    (pickAt i l d).2.length = l.length - 1 := by
  induction i generalizing l with
  | zero =>
    match l, h with
    | p :: ps, _ => simp [pickAt]
  | succ i ih =>
    match l, h with
    | p :: ps, h =>
      have hps : i < ps.length := by
        simp only [List.length_cons] at h
        omega
      rcases hpk : pickAt i ps d with ⟨x, rest⟩
      have hrec := ih ps hps
      rw [hpk] at hrec
      have hred : pickAt (i + 1) (p :: ps) d = (x, p :: rest) := by
        rw [pickAt, hpk]
      rw [hred]
      simp only [List.length_cons] at hrec ⊢
      omega

theorem sampleK_perm (k : Nat) (s : Nat) (pool : List α) (h : pool.length = k) :
    List.Perm (sampleK k s pool k) pool := by
  induction k generalizing s pool with
  | zero =>
    have : pool = [] := List.eq_nil_of_length_eq_zero h
    subst this
    rfl
  | succ k ih =>
    match pool, h with
    | p :: ps, h =>
      have hi : (lcg s) % (k + 1) < (p :: ps).length := by
        rw [h]
        exact Nat.mod_lt _ (by omega)
      rcases hpk : pickAt ((lcg s) % (k + 1)) (p :: ps) p with ⟨x, rest⟩
      have hperm := pickAt_perm ((lcg s) % (k + 1)) (p :: ps) p hi
      have hlen := pickAt_length ((lcg s) % (k + 1)) (p :: ps) p hi
      rw [hpk] at hperm hlen
      simp only [List.length_cons] at hperm hlen
      have hred : sampleK (k + 1) s (p :: ps) (k + 1)
          = x :: sampleK k (lcg s) rest (k + 1 - 1) := by
        rw [sampleK, hpk]
      have hk1 : k + 1 - 1 = k := rfl
      rw [hk1] at hred
      have hrl : rest.length = k := by
        have hps : (p :: ps).length = k + 1 := h
        simp only [List.length_cons] at hps
        omega
      rw [hred]
      exact ((ih (lcg s) rest hrl).cons x).trans hperm.symm

theorem shuffle_perm (key : Nat) (l : List α) : List.Perm (shuffle key l) l :=
  sampleK_perm l.length (pyInit key) l rfl

theorem shuffle_length (key : Nat) (l : List α) : (shuffle key l).length = l.length :=
  (shuffle_perm key l).length_eq

/-! ### Facts about `random_sample` -/

theorem random_sample_go_length (s : Nat) (options : List α) (n : Nat) :
    (random_sample_go s options n).length = n := by
  induction n generalizing s with
  | zero => rfl
  | succ n ih => simp [random_sample_go, ih]

theorem random_sample_length (key : Nat) (options : List α) (n : Nat) :
    (random_sample key options n).length = n :=
  random_sample_go_length _ _ _

theorem random_sample_go_getD_singleton (s : Nat) (o : α) (os : List α) (n i : Nat)
    (h : i < n) :
    ∃ c ∈ o :: os, (random_sample_go s (o :: os) n).getD i [] = [c] := by
  induction n generalizing s i with
  | zero => omega
  | succ n ih =>
    cases i with
    | zero =>
      have hlt : (lcg s) % (o :: os).length < (o :: os).length :=
        Nat.mod_lt _ (by simp)
      refine ⟨(o :: os).getD ((lcg s) % (o :: os).length) o, ?_, ?_⟩
      · rw [List.getD_eq_getElem _ o hlt]
        exact List.getElem_mem hlt
      · simp [random_sample_go]
    | succ i =>
      have hstep : (random_sample_go s (o :: os) (n + 1)).getD (i + 1) []
          = (random_sample_go (lcg s) (o :: os) n).getD i [] := by
        simp [random_sample_go]
      rw [hstep]
      exact ih (lcg s) i (by omega)

theorem random_sample_singleton (key : Nat) (o : α) (os : List α) (n i : Nat)
    (h : i < n) :
    ∃ c ∈ o :: os, (random_sample key (o :: os) n).getD i [] = [c] :=
  random_sample_go_getD_singleton _ o os n i h

/-- Element `i` of the sample stream does not depend on how many draws follow
it: the two streams agree on their common prefix. -/
theorem random_sample_go_getD_agree (s : Nat) (options : List α) (n m i : Nat)
    (hn : i < n) (hm : i < m) :
    (random_sample_go s options n).getD i [] = (random_sample_go s options m).getD i [] := by
  induction i generalizing s n m with
  | zero =>
    match n, m, hn, hm with
    | n + 1, m + 1, _, _ =>
      cases options <;> simp [random_sample_go]
  | succ i ih =>
    match n, m, hn, hm with
    | n + 1, m + 1, hn, hm =>
      have h1 : (random_sample_go s options (n + 1)).getD (i + 1) []
          = (random_sample_go (lcg s) options n).getD i [] := by
        simp [random_sample_go]
      have h2 : (random_sample_go s options (m + 1)).getD (i + 1) []
          = (random_sample_go (lcg s) options m).getD i [] := by
        simp [random_sample_go]
      rw [h1, h2]
      exact ih (lcg s) n m (by omega) (by omega)

theorem random_sample_getD_agree (key : Nat) (options : List α) (n m i : Nat)
    (hn : i < n) (hm : i < m) :
    (random_sample key options n).getD i [] = (random_sample key options m).getD i [] :=
  random_sample_go_getD_agree _ options n m i hn hm

/-! ## UTF-8 codec

Model of Python's `bytearray(text, 'utf-8')` and `bytes.decode('utf-8')`.
Text is a list of Unicode scalar values.  The strict decoder rejects
continuation-byte errors, overlong forms, surrogates and out-of-range values,
as CPython's strict `'utf-8'` codec does. -/

/-- A Unicode scalar value: a code point that UTF-8 can encode (Python's
`str.encode('utf-8')` raises on lone surrogates). -/
def ValidScalar (c : Nat) : Prop :=
  c < 1114112 ∧ ¬(55296 ≤ c ∧ c < 57344)

instance (c : Nat) : Decidable (ValidScalar c) := by
  unfold ValidScalar
  infer_instance

/-- UTF-8 encoding of one code point (1-4 bytes). -/
def utf8EncodeChar (c : Nat) : List Nat :=
  if c < 128 then [c]
  else if c < 2048 then [192 + c / 64, 128 + c % 64]
  else if c < 65536 then [224 + c / 4096, 128 + (c / 64) % 64, 128 + c % 64]
  else [240 + c / 262144, 128 + (c / 4096) % 64, 128 + (c / 64) % 64, 128 + c % 64]

/-- UTF-8 encoding of a text: concatenated encodings of its code points. -/
def utf8Encode (cs : List Nat) : List Nat :=
  cs.flatMap utf8EncodeChar

/-- Is `b` a UTF-8 continuation byte? -/
def isCont (b : Nat) : Bool :=
  decide (128 ≤ b) && decide (b < 192)

/-- Strict UTF-8 decoder, `none` on any malformed input.  Recursion is fuelled
by the length of the byte list; a missing continuation byte is read as `0`,
which always fails the `isCont` test, so truncated sequences decode to `none`
exactly as in the nested-pattern formulation. -/
def utf8DecodeAux : Nat → List Nat → Option (List Nat)
  | _, [] => some []
  | 0, _ :: _ => none
  | fuel + 1, b :: bs =>
    if b < 128 then (utf8DecodeAux fuel bs).map (b :: ·)
    else if b < 224 then
      if 194 ≤ b ∧ isCont (bs.getD 0 0) then
        (utf8DecodeAux fuel (bs.drop 1)).map (((b - 192) * 64 + (bs.getD 0 0 - 128)) :: ·)
      else none
    else if b < 240 then
      if isCont (bs.getD 0 0) ∧ isCont (bs.getD 1 0) ∧
          2048 ≤ (b - 224) * 4096 + (bs.getD 0 0 - 128) * 64 + (bs.getD 1 0 - 128) ∧
          ¬(55296 ≤ (b - 224) * 4096 + (bs.getD 0 0 - 128) * 64 + (bs.getD 1 0 - 128) ∧
            (b - 224) * 4096 + (bs.getD 0 0 - 128) * 64 + (bs.getD 1 0 - 128) < 57344) then
        (utf8DecodeAux fuel (bs.drop 2)).map
          (((b - 224) * 4096 + (bs.getD 0 0 - 128) * 64 + (bs.getD 1 0 - 128)) :: ·)
      else none
    else
      if b < 245 ∧ isCont (bs.getD 0 0) ∧ isCont (bs.getD 1 0) ∧ isCont (bs.getD 2 0) ∧
          65536 ≤ (b - 240) * 262144 + (bs.getD 0 0 - 128) * 4096
            + (bs.getD 1 0 - 128) * 64 + (bs.getD 2 0 - 128) ∧
          (b - 240) * 262144 + (bs.getD 0 0 - 128) * 4096
            + (bs.getD 1 0 - 128) * 64 + (bs.getD 2 0 - 128) < 1114112 then
        (utf8DecodeAux fuel (bs.drop 3)).map
          (((b - 240) * 262144 + (bs.getD 0 0 - 128) * 4096
            + (bs.getD 1 0 - 128) * 64 + (bs.getD 2 0 - 128)) :: ·)
      else none

/-- Model of Python's `bytes.decode('utf-8')` (strict). -/
def utf8Decode (l : List Nat) : Option (List Nat) :=
  utf8DecodeAux l.length l

/-- The decoder's result does not depend on the fuel, as long as there is
enough of it. -/
theorem utf8DecodeAux_fuel (f1 f2 : Nat) (l : List Nat)
    (h1 : l.length ≤ f1) (h2 : l.length ≤ f2) :
    utf8DecodeAux f1 l = utf8DecodeAux f2 l := by
  induction f1 generalizing f2 l with
  | zero =>
    have : l = [] := List.eq_nil_of_length_eq_zero (by omega)
    subst this
    cases f2 <;> rfl
  | succ f1 ih =>
    cases l with
    | nil => cases f2 <;> rfl
    | cons b bs =>
      cases f2 with
      | zero => simp at h2
      | succ f2 =>
        have hbs : bs.length ≤ f1 := by
          simp at h1
          omega
        have hbs2 : bs.length ≤ f2 := by
          simp at h2
          omega
        have hd : ∀ k, (bs.drop k).length ≤ f1 := by
          intro k
          simp [List.length_drop]
          omega
        have hd2 : ∀ k, (bs.drop k).length ≤ f2 := by
          intro k
          simp [List.length_drop]
          omega
        rw [utf8DecodeAux, utf8DecodeAux,
          ih f2 bs hbs hbs2, ih f2 (bs.drop 1) (hd 1) (hd2 1),
          ih f2 (bs.drop 2) (hd 2) (hd2 2), ih f2 (bs.drop 3) (hd 3) (hd2 3)]

theorem utf8Decode_cons (b : Nat) (bs : List Nat) (fuel : Nat)
    (hf : bs.length ≤ fuel) :
    utf8Decode (b :: bs) = utf8DecodeAux (fuel + 1) (b :: bs) := by
  unfold utf8Decode
  exact utf8DecodeAux_fuel (b :: bs).length (fuel + 1) (b :: bs) (le_refl _) (by simp; omega)

theorem utf8EncodeChar_ne_nil (c : Nat) : utf8EncodeChar c ≠ [] := by
  unfold utf8EncodeChar
  split_ifs <;> simp

theorem utf8EncodeChar_lt_256 (c : Nat) (h : ValidScalar c) :
    ∀ b ∈ utf8EncodeChar c, b < 256 := by
  obtain ⟨h1, _⟩ := h
  intro b hb
  unfold utf8EncodeChar at hb
  split_ifs at hb with hc1 hc2 hc3
  · simp at hb
    omega
  · simp at hb
    rcases hb with hb | hb <;> omega
  · simp at hb
    rcases hb with hb | hb | hb <;> omega
  · simp at hb
    rcases hb with hb | hb | hb | hb <;> omega

theorem utf8DecodeAux_eq_decode (fuel : Nat) (l : List Nat) (h : l.length ≤ fuel) :
    utf8DecodeAux fuel l = utf8Decode l :=
  utf8DecodeAux_fuel fuel l.length l h (le_refl _)

/-- Decoding one encoded code point from the front of a byte stream. -/
theorem utf8Decode_encodeChar (c : Nat) (h : ValidScalar c) (rest : List Nat) :
    utf8Decode (utf8EncodeChar c ++ rest) = (utf8Decode rest).map (c :: ·) := by
  obtain ⟨h1, h2⟩ := h
  unfold utf8EncodeChar
  split_ifs with hc1 hc2 hc3
  · rw [List.cons_append, List.nil_append,
      utf8Decode_cons c rest rest.length (le_refl _), utf8DecodeAux]
    rw [if_pos hc1, utf8DecodeAux_eq_decode rest.length rest (le_refl _)]
  · simp only [List.cons_append, List.nil_append]
    rw [utf8Decode_cons _ _ (rest.length + 1) (by simp),
      utf8DecodeAux]
    have hb : ¬(192 + c / 64 < 128) := by omega
    have hb2 : 192 + c / 64 < 224 := by omega
    rw [if_neg hb, if_pos hb2]
    simp only [List.getD_cons_zero, List.drop_succ_cons, List.drop_zero]
    have hcond : 194 ≤ 192 + c / 64 ∧ isCont (128 + c % 64) = true := by
      refine ⟨by omega, ?_⟩
      simp only [isCont, Bool.and_eq_true, decide_eq_true_eq]
      omega
    rw [if_pos hcond, utf8DecodeAux_eq_decode (rest.length + 1) rest (by omega)]
    have hval : (192 + c / 64 - 192) * 64 + (128 + c % 64 - 128) = c := by omega
    rw [hval]
  · simp only [List.cons_append, List.nil_append]
    rw [utf8Decode_cons _ _ (rest.length + 2) (by simp),
      utf8DecodeAux]
    have hb : ¬(224 + c / 4096 < 128) := by omega
    have hb2 : ¬(224 + c / 4096 < 224) := by omega
    have hb3 : 224 + c / 4096 < 240 := by omega
    rw [if_neg hb, if_neg hb2, if_pos hb3]
    simp only [List.getD_cons_zero, List.getD_cons_succ, List.drop_succ_cons,
      List.drop_zero]
    have hval : (224 + c / 4096 - 224) * 4096 + (128 + (c / 64) % 64 - 128) * 64
        + (128 + c % 64 - 128) = c := by omega
    rw [hval]
    have hcond : isCont (128 + (c / 64) % 64) = true ∧ isCont (128 + c % 64) = true ∧
        2048 ≤ c ∧ ¬(55296 ≤ c ∧ c < 57344) := by
      refine ⟨?_, ?_, by omega, h2⟩
      · simp only [isCont, Bool.and_eq_true, decide_eq_true_eq]
        omega
      · simp only [isCont, Bool.and_eq_true, decide_eq_true_eq]
        omega
    rw [if_pos hcond, utf8DecodeAux_eq_decode (rest.length + 2) rest (by omega)]
  · simp only [List.cons_append, List.nil_append]
    rw [utf8Decode_cons _ _ (rest.length + 3) (by simp),
      utf8DecodeAux]
    have hb : ¬(240 + c / 262144 < 128) := by omega
    have hb2 : ¬(240 + c / 262144 < 224) := by omega
    have hb3 : ¬(240 + c / 262144 < 240) := by omega
    rw [if_neg hb, if_neg hb2, if_neg hb3]
    simp only [List.getD_cons_zero, List.getD_cons_succ, List.drop_succ_cons,
      List.drop_zero]
    have hval : (240 + c / 262144 - 240) * 262144 + (128 + (c / 4096) % 64 - 128) * 4096
        + (128 + (c / 64) % 64 - 128) * 64 + (128 + c % 64 - 128) = c := by omega
    rw [hval]
    have hcond : 240 + c / 262144 < 245 ∧ isCont (128 + (c / 4096) % 64) = true ∧
        isCont (128 + (c / 64) % 64) = true ∧ isCont (128 + c % 64) = true ∧
        65536 ≤ c ∧ c < 1114112 := by
      refine ⟨by omega, ?_, ?_, ?_, by omega, h1⟩
      · simp only [isCont, Bool.and_eq_true, decide_eq_true_eq]
        omega
      · simp only [isCont, Bool.and_eq_true, decide_eq_true_eq]
        omega
      · simp only [isCont, Bool.and_eq_true, decide_eq_true_eq]
        omega
    rw [if_pos hcond, utf8DecodeAux_eq_decode (rest.length + 3) rest (by omega)]

/-- Decoding inverts encoding on valid text. -/
theorem utf8Decode_utf8Encode (cs : List Nat) (h : ∀ c ∈ cs, ValidScalar c) :
    utf8Decode (utf8Encode cs) = some cs := by
  induction cs with
  | nil => rfl
  | cons c cs ih =>
    have hc : ValidScalar c := h c (List.mem_cons_self c cs)
    have hcs : ∀ x ∈ cs, ValidScalar x := fun x hx => h x (List.mem_cons_of_mem c hx)
    show utf8Decode (utf8EncodeChar c ++ utf8Encode cs) = some (c :: cs)
    rw [utf8Decode_encodeChar c hc, ih hcs]
    rfl

/-! ## `binary_conversion` (src lines 115-120) -/

/-- `binary_conversion(data, 'binary')` (src line 118): each UTF-8 byte of the
text as `bin(byte)[2:].zfill(8)`, concatenated (MSB first). -/
def binary_conversion_binary (data : List Nat) : List Bool :=
  (utf8Encode data).flatMap integer_bin

/-- Python `v.to_bytes(n, byteorder='big')`: the `n` big-endian bytes of `v`. -/
def bytesOfNat : Nat → Nat → List Nat
  | 0, _ => []
  | n + 1, v => bytesOfNat n (v / 256) ++ [v % 256]

/-- `binary_conversion(data, 'text')` (src lines 119-120):
`int(data, 2).to_bytes(len(data) // 8, 'big').decode('utf-8')`.
`int('', 2)` raises, `.to_bytes` raises when the value does not fit in
`len(data) // 8` bytes, `.decode` raises on invalid UTF-8; every Python
exception is `none`. -/
def binary_conversion_text (data : List Bool) : Option (List Nat) :=
  if data = [] then none
  else
    if int_from_bits data < 256 ^ (data.length / 8) then
      utf8Decode (bytesOfNat (data.length / 8) (int_from_bits data))
    else none

/-! ### Byte/bit lemmas -/

theorem toBitsLen_succ_of_lt (n v : Nat) (hv : v < 2 ^ n) :
    toBitsLen (n + 1) v = false :: toBitsLen n v := by
  induction n generalizing v with
  | zero =>
    have : v = 0 := by
      simp only [pow_zero] at hv
      omega
    subst this
    rfl
  | succ n ih =>
    have hd : v / 2 < 2 ^ n := by
      rw [pow_succ] at hv
      omega
    show toBitsLen (n + 1) (v / 2) ++ [decide (v % 2 = 1)] = false :: toBitsLen (n + 1) v
    rw [ih (v / 2) hd]
    rfl

theorem toBitsLen_pad (m n v : Nat) (h : m ≤ n) (hv : v < 2 ^ m) :
    toBitsLen n v = List.replicate (n - m) false ++ toBitsLen m v := by
  induction n with
  | zero =>
    have : m = 0 := by omega
    subst this
    rfl
  | succ n ih =>
    rcases Nat.lt_or_ge m (n + 1) with hlt | hge
    · have hm : m ≤ n := by omega
      have hv2 : v < 2 ^ n := lt_of_lt_of_le hv (Nat.pow_le_pow_right (by norm_num) hm)
      rw [toBitsLen_succ_of_lt n v hv2, ih hm]
      have hrep : n + 1 - m = (n - m) + 1 := by omega
      rw [hrep, List.replicate_succ]
      rfl
    · have : m = n + 1 := by omega
      subst this
      simp

theorem lt_two_pow_bitLen (v : Nat) : v < 2 ^ bitLen v :=
  (bitLen_le_iff v (bitLen v)).mp (le_refl _)

theorem integer_bin_eq_toBitsLen (b : Nat) (hb : b < 256) :
    integer_bin b = toBitsLen 8 b := by
  have hm1 : bitLen b ≤ 8 := (bitLen_le_iff b 8).mpr (by norm_num; omega)
  have hm : max 1 (bitLen b) ≤ 8 := by omega
  have hv : b < 2 ^ max 1 (bitLen b) :=
    lt_of_lt_of_le (lt_two_pow_bitLen b)
      (Nat.pow_le_pow_right (by norm_num) (le_max_right _ _))
  rw [integer_bin, pyBin, zfill, toBitsLen_length,
    toBitsLen_pad (max 1 (bitLen b)) 8 b hm hv]

theorem integer_bin_length (v : Nat) :
    (integer_bin v).length = max 8 (max 1 (bitLen v)) := by
  rw [integer_bin, zfill_length, pyBin, toBitsLen_length]

theorem int_from_bits_integer_bin (b : Nat) (hb : b < 256) :
    int_from_bits (integer_bin b) = b := by
  rw [integer_bin_eq_toBitsLen b hb]
  exact int_from_bits_toBitsLen 8 b (by omega)

/-- `bytesVal` is the big-endian value of a byte string (used to relate
`int(bits, 2)` over concatenated byte encodings to the byte list). -/
def bytesVal (bs : List Nat) : Nat :=
  bs.foldl (fun a b => 256 * a + b) 0

theorem bytesVal_from (bs : List Nat) (a : Nat) :
    bs.foldl (fun a b => 256 * a + b) a = a * 256 ^ bs.length + bytesVal bs := by
  induction bs generalizing a with
  | nil => simp [bytesVal]
  | cons b t ih =>
    simp only [List.foldl_cons]
    rw [ih (256 * a + b)]
    have h2 : bytesVal (b :: t) = b * 256 ^ t.length + bytesVal t := by
      simp only [bytesVal, List.foldl_cons]
      rw [ih (256 * 0 + b)]
      simp only [bytesVal]
      ring_nf
    rw [h2, List.length_cons, pow_succ]
    ring

theorem bytesVal_cons (b : Nat) (t : List Nat) :
    bytesVal (b :: t) = b * 256 ^ t.length + bytesVal t := by
  simp only [bytesVal, List.foldl_cons]
  rw [bytesVal_from t (256 * 0 + b)]
  simp only [bytesVal]
  ring_nf

theorem bytesVal_append_singleton (t : List Nat) (b : Nat) :
    bytesVal (t ++ [b]) = bytesVal t * 256 + b := by
  simp only [bytesVal, List.foldl_append, List.foldl_cons, List.foldl_nil]
  omega

theorem bytesVal_lt (bs : List Nat) (h : ∀ b ∈ bs, b < 256) :
    bytesVal bs < 256 ^ bs.length := by
  induction bs with
  | nil => simp [bytesVal]
  | cons b t ih =>
    rw [bytesVal_cons, List.length_cons, pow_succ]
    have hb : b < 256 := h b (List.mem_cons_self b t)
    have ht : bytesVal t < 256 ^ t.length := ih fun x hx => h x (List.mem_cons_of_mem b hx)
    calc b * 256 ^ t.length + bytesVal t
        < b * 256 ^ t.length + 256 ^ t.length := Nat.add_lt_add_left ht _
      _ = (b + 1) * 256 ^ t.length := by ring
      _ ≤ 256 * 256 ^ t.length := Nat.mul_le_mul_right _ (by omega)
      _ = 256 ^ t.length * 256 := mul_comm _ _

theorem bytesOfNat_bytesVal (bs : List Nat) (h : ∀ b ∈ bs, b < 256) :
    bytesOfNat bs.length (bytesVal bs) = bs := by
  induction bs using List.reverseRecOn with
  | nil => rfl
  | append_singleton t b ih =>
    have hb : b < 256 := h b (by simp)
    have ht : ∀ x ∈ t, x < 256 := fun x hx => h x (by simp [hx])
    have h1 : (t ++ [b]).length = t.length + 1 := by simp
    rw [h1, bytesVal_append_singleton, bytesOfNat]
    have h2 : (bytesVal t * 256 + b) / 256 = bytesVal t := by omega
    have h3 : (bytesVal t * 256 + b) % 256 = b := by omega
    rw [h2, h3, ih ht]

theorem flatMap_integer_bin_length (bs : List Nat) (h : ∀ b ∈ bs, b < 256) :
    (bs.flatMap integer_bin).length = 8 * bs.length := by
  induction bs with
  | nil => rfl
  | cons b t ih =>
    have hb : b < 256 := h b (List.mem_cons_self b t)
    have ht : ∀ x ∈ t, x < 256 := fun x hx => h x (List.mem_cons_of_mem b hx)
    rw [List.flatMap_cons, List.length_append, ih ht,
      integer_bin_eq_toBitsLen b hb, toBitsLen_length, List.length_cons]
    ring

theorem int_from_bits_flatMap (bs : List Nat) (h : ∀ b ∈ bs, b < 256) :
    int_from_bits (bs.flatMap integer_bin) = bytesVal bs := by
  induction bs with
  | nil => rfl
  | cons b t ih =>
    have hb : b < 256 := h b (List.mem_cons_self b t)
    have ht : ∀ x ∈ t, x < 256 := fun x hx => h x (List.mem_cons_of_mem b hx)
    rw [List.flatMap_cons, int_from_bits_append, ih ht, bytesVal_cons,
      int_from_bits_integer_bin b hb, flatMap_integer_bin_length t ht]
    have hpow : (2 : Nat) ^ (8 * t.length) = 256 ^ t.length := by
      rw [pow_mul]
      norm_num
    rw [hpow]

theorem utf8Encode_lt_256 (cs : List Nat) (h : ∀ c ∈ cs, ValidScalar c) :
    ∀ b ∈ utf8Encode cs, b < 256 := by
  intro b hb
  rw [utf8Encode, List.mem_flatMap] at hb
  obtain ⟨c, hc, hbc⟩ := hb
  exact utf8EncodeChar_lt_256 c (h c hc) b hbc

theorem utf8Encode_ne_nil (c : Nat) (cs : List Nat) : utf8Encode (c :: cs) ≠ [] := by
  rw [utf8Encode, List.flatMap_cons]
  intro hcontra
  exact utf8EncodeChar_ne_nil c (List.append_eq_nil.mp hcontra).1

theorem int_from_bits_cons (b : Bool) (t : List Bool) :
    int_from_bits (b :: t) = (if b then 1 else 0) * 2 ^ t.length + int_from_bits t := by
  simp only [int_from_bits, List.foldl_cons]
  rw [int_from_bits_from t (2 * 0 + (if b then 1 else 0))]
  simp only [int_from_bits]
  ring_nf

theorem int_from_bits_eq_zero_iff (l : List Bool) :
    int_from_bits l = 0 ↔ l.any (fun b => b) = false := by
  induction l with
  | nil => simp [int_from_bits]
  | cons b t ih =>
    rw [int_from_bits_cons, List.any_cons]
    have hpow : 0 < 2 ^ t.length := Nat.two_pow_pos t.length
    cases b
    · simp only [Bool.false_eq_true, if_false, zero_mul, zero_add, Bool.false_or]
      exact ih
    · simp only [if_true, one_mul, Bool.true_or]
      constructor
      · intro hc
        omega
      · intro hc
        cases hc

/-- Round-trip of the `binary_conversion` codec on non-empty well-formed
text. -/
theorem binary_conversion_roundtrip (cs : List Nat) (h : ∀ c ∈ cs, ValidScalar c)
    (hne : cs ≠ []) :
    binary_conversion_text (binary_conversion_binary cs) = some cs := by
  have hlt : ∀ b ∈ utf8Encode cs, b < 256 := utf8Encode_lt_256 cs h
  have hbne : utf8Encode cs ≠ [] := by
    obtain ⟨c, cs', rfl⟩ := List.exists_cons_of_ne_nil hne
    exact utf8Encode_ne_nil c cs'
  have hlen : ((utf8Encode cs).flatMap integer_bin).length = 8 * (utf8Encode cs).length :=
    flatMap_integer_bin_length (utf8Encode cs) hlt
  have hv : int_from_bits ((utf8Encode cs).flatMap integer_bin) = bytesVal (utf8Encode cs) :=
    int_from_bits_flatMap (utf8Encode cs) hlt
  have hbitsne : (utf8Encode cs).flatMap integer_bin ≠ [] := by
    intro hc
    apply hbne
    have h0 : ((utf8Encode cs).flatMap integer_bin).length = 0 := by rw [hc]; rfl
    rw [hlen] at h0
    exact List.eq_nil_of_length_eq_zero (by omega)
  rw [binary_conversion_binary, binary_conversion_text, if_neg hbitsne, hlen, hv]
  have hn : 8 * (utf8Encode cs).length / 8 = (utf8Encode cs).length :=
    Nat.mul_div_cancel_left _ (by norm_num)
  rw [hn, if_pos (bytesVal_lt (utf8Encode cs) hlt),
    bytesOfNat_bytesVal (utf8Encode cs) hlt]
  exact utf8Decode_utf8Encode cs h

/-- Failure characterization of `binary_conversion(·, 'text')` on non-empty
bit strings: the `to_bytes` overflow happens exactly when one of the leading
`len mod 8` bits is set; otherwise those leading bits are silently dropped and
only UTF-8 validity of the packed bytes decides the outcome. -/
theorem binary_conversion_text_none_iff (data : List Bool) (hne : data ≠ []) :
    binary_conversion_text data = none ↔
      ((data.take (data.length % 8)).any (fun b => b) = true ∨
        utf8Decode (bytesOfNat (data.length / 8)
          (int_from_bits (data.drop (data.length % 8)))) = none) := by
  have hdroplen : (data.drop (data.length % 8)).length = 8 * (data.length / 8) := by
    simp only [List.length_drop]
    omega
  have hsplit : int_from_bits data
      = int_from_bits (data.take (data.length % 8)) * 2 ^ (8 * (data.length / 8))
        + int_from_bits (data.drop (data.length % 8)) := by
    conv_lhs => rw [← List.take_append_drop (data.length % 8) data]
    rw [int_from_bits_append, hdroplen]
  have hdlt : int_from_bits (data.drop (data.length % 8)) < 2 ^ (8 * (data.length / 8)) := by
    have := int_from_bits_lt (data.drop (data.length % 8))
    rwa [hdroplen] at this
  have h256 : (256 : Nat) ^ (data.length / 8) = 2 ^ (8 * (data.length / 8)) := by
    rw [pow_mul]
    norm_num
  rw [binary_conversion_text, if_neg hne]
  rcases hany : (data.take (data.length % 8)).any (fun b => b) with hfalse | htrue
  · have hzero : int_from_bits (data.take (data.length % 8)) = 0 :=
      (int_from_bits_eq_zero_iff _).mpr hany
    rw [hzero, zero_mul, zero_add] at hsplit
    rw [hsplit, h256, if_pos hdlt]
    simp
  · have hpos : int_from_bits (data.take (data.length % 8)) ≠ 0 := by
      intro hc
      rw [int_from_bits_eq_zero_iff] at hc
      rw [hany] at hc
      cases hc
    have hge : ¬(int_from_bits data < 256 ^ (data.length / 8)) := by
      rw [h256, hsplit]
      have h1 : 1 ≤ int_from_bits (data.take (data.length % 8)) := by omega
      have h2 : 2 ^ (8 * (data.length / 8))
          ≤ int_from_bits (data.take (data.length % 8)) * 2 ^ (8 * (data.length / 8)) :=
        Nat.le_mul_of_pos_left _ (by omega)
      omega
    rw [if_neg hge]
    simp

/-! ## Pixel grid model -/

/-- A pixel: the list of its channel bytes, `[red, green, blue]`. -/
abbrev Pixel := List Nat

/-- A pixel grid, `Image.getpixel` as a function. -/
def Grid := Nat × Nat → Pixel

/-- `Image.putpixel`. -/
def putpixel (g : Grid) (pos : Nat × Nat) (p : Pixel) : Grid :=
  fun q => if q = pos then p else g q

/-- src `decimal_encoding` (lines 11-16): the text, one code point per
character, read as a base-256 integer. -/
def decimal_encoding (text : List Nat) : Nat :=
  text.foldl (fun a b => a * 256 + b) 0

/-- `itertools.product(range(WIDTH), range(HEIGHT))`. -/
def productWH (W H : Nat) : List (Nat × Nat) :=
  (List.range W).flatMap (fun x => (List.range H).map (fun y => (x, y)))

/-- Python `sum` over a pixel tuple. -/
def pixelSum (p : Pixel) : Nat :=
  p.foldl (fun a b => a + b) 0

/-- The first seed of `generate_context` (src lines 43-44):
`decimal_encoding(key) * (Size.PIXELS * 99)`. -/
def context_seed (key : List Nat) (W H : Nat) : Nat :=
  decimal_encoding key * (W * H * 99)

/-- The first coordinate shuffle of `generate_context` (src line 45). -/
def context_coords (key : List Nat) (W H : Nat) : List (Nat × Nat) :=
  shuffle (context_seed key W H) (productWH W H)

/-- src `generate_context` (lines 41-50) with the default `key_pixels = 16`:
sample the first 15 shuffled coordinates, multiply the seed by the sum of all
their channel bytes, drop 16 coordinates and re-shuffle the rest. -/
def generate_context (key : List Nat) (g : Grid) (W H : Nat) :
    List (Nat × Nat) × Nat :=
  let coords := context_coords key W H
  let pixels := (List.range 15).map (fun p => g (coords.getD p (0, 0)))
  let key2 := context_seed key W H * (pixels.map pixelSum).sum
  (shuffle key2 (coords.drop 16), key2)

/-- The dynamic `Configuration` class built by `build_object`
(src lines 97-112). -/
structure Configuration where
  COLOURS : List Nat
  INDEXS : List Nat
  VOLUME : Nat
  METHOD : String
  NOISE : Bool
  KEY : Nat

/-- src `build_object` (lines 97-112).  `None` defaults are `[0, 1, 2]` and
`[6, 7]`; the dict comprehensions keep the first occurrence of duplicated
entries, hence `dedup`; `VOLUME` uses the raw argument lists. -/
def build_object (key : Nat) (method : String) (noise : Bool)
    (colours indexs : Option (List Nat)) : Configuration :=
  let colours := colours.getD [0, 1, 2]
  let indexs := indexs.getD [6, 7]
  { COLOURS := colours.dedup
    INDEXS := indexs.dedup
    VOLUME := if method = "all" then colours.length * indexs.length else indexs.length
    METHOD := method
    NOISE := noise
    KEY := key }

/-- src `generate_header` (lines 53-65): method flag, then the 3-entry colour
presence table, then the 8-entry index presence table. -/
def generate_header (c : Configuration) : List Bool :=
  let method_bool := if c.METHOD = "random" then true else false
  let colour_table := c.COLOURS.foldl (fun t i => t.set i true) (List.replicate 3 false)
  let index_table := c.INDEXS.foldl (fun t i => t.set i true) (List.replicate 8 false)
  method_bool :: (colour_table ++ index_table)

/-- One loop iteration of `attach_header` (src lines 88-93): write bit `b`
into the least-significant bit of channel `c` of the pixel at `pos`. -/
def attach_header_step (g : Grid) (pos : Nat × Nat) (c : Nat) (b : Bool) : Grid :=
  let pixel := g pos
  let value := integer_bin (pixel.getD c 0)
  let modified_value := int_from_bits (value.dropLast ++ [b])
  putpixel g pos (pixel.set c modified_value)

/-- The `attach_header` loop, `i` being the `enumerate` index. -/
def attach_header_go (colours : List Nat) (header : List Bool) :
    Nat → List (Nat × Nat) → Grid → Grid
  | _, [], g => g
  | i, pos :: rest, g =>
      attach_header_go colours header (i + 1) rest
        (attach_header_step g pos (colours.getD i 0) (header.getD i false))

/-- src `attach_header` (lines 82-94).  Note the source's
`header_coords = coords[:length - 1]`: only the first `len(header) - 1`
coordinates are ever written, while `length` coordinates are removed from the
returned list. -/
def attach_header (g : Grid) (key : Nat) (header : List Bool)
    (coords : List (Nat × Nat)) : List (Nat × Nat) × Grid :=
  let length := header.length
  let header_coords := coords.take (length - 1)
  let colours := (random_sample key [0, 1, 2] length).flatten
  (coords.drop length, attach_header_go colours header 0 header_coords g)

/-- The `generate_coords` loop body (src lines 152-156), `i` being the
`enumerate` index. -/
def generate_coords_go (method : String) (chosen : List (List Nat))
    (colours indexs : List Nat) : Nat → List (Nat × Nat) → List (Nat × Nat × Nat × Nat)
  | _, [] => []
  | i, p :: ps =>
      ((if method = "random" then chosen.getD i [] else colours).flatMap fun c =>
        indexs.map fun index => (p.1, p.2, c, index))
        ++ generate_coords_go method chosen colours indexs (i + 1) ps

/-- src `generate_coords` (lines 143-157): one slot per coordinate, per
channel (all channels, or the per-coordinate sampled one), per index, then a
final shuffle with the configuration key.  The channel sample length is
`Size.PIXELS` (line 149), not the number of coordinates. -/
def generate_coords (c : Configuration) (size_pixels : Nat)
    (pixel_coords : List (Nat × Nat)) : List (Nat × Nat × Nat × Nat) :=
  let chosen := if c.METHOD = "random"
    then random_sample c.KEY c.COLOURS size_pixels else []
  shuffle c.KEY (generate_coords_go c.METHOD chosen c.COLOURS c.INDEXS 0 pixel_coords)

/-- `len(integer_conversion(capacity, 'binary'))` (src line 133). -/
def end_key_size (capacity : Nat) : Nat := (integer_bin capacity).length

/-- src `generate_message` (lines 129-141).  `generate_numbers` (line 123)
seeds from `secrets.token_hex`; that fresh entropy source is the oracle
parameter.  `raise ValueError` is `Except.error` carrying the bit overage. -/
def generate_message (c : Configuration) (data : List Nat)
    (coords : List (Nat × Nat × Nat × Nat)) (noiseOracle : Nat → Bool) :
    Except Nat (List Bool) :=
  let capacity := coords.length
  let dataBits := binary_conversion_binary data
  let size := end_key_size capacity + dataBits.length
  if size > capacity then Except.error (size - capacity)
  else
    let noise := if c.NOISE then (List.range (capacity - size)).map noiseOracle else []
    let end_key := zfill (end_key_size capacity) (integer_bin dataBits.length)
    Except.ok (end_key ++ dataBits ++ noise)

/-- One loop iteration of `attach_data` (src lines 164-170): set the bit at
position `s.2.2.2` (0 = most significant) of channel `s.2.2.1` of the pixel
at `(s.1, s.2.1)` to `b`. -/
def attach_data_step (g : Grid) (s : Nat × Nat × Nat × Nat) (b : Bool) : Grid :=
  let pixel := g (s.1, s.2.1)
  let value := integer_bin (pixel.getD s.2.2.1 0)
  let modified_value := int_from_bits (value.set s.2.2.2 b)
  putpixel g (s.1, s.2.1) (pixel.set s.2.2.1 modified_value)

/-- The `attach_data` loop, `i` being the `enumerate` index. -/
def attach_data_go (msg : List Bool) :
    Nat → List (Nat × Nat × Nat × Nat) → Grid → Grid
  | _, [], g => g
  | i, s :: rest, g =>
      attach_data_go msg (i + 1) rest (attach_data_step g s (msg.getD i false))

/-- src `attach_data` (lines 160-171). -/
def attach_data (g : Grid) (c : Configuration) (binary_message : List Bool)
    (coords : List (Nat × Nat × Nat × Nat)) : Grid :=
  let coords := if c.NOISE = false then coords.take binary_message.length else coords
  attach_data_go binary_message 0 coords g

/-- src `data_insert` (lines 190-201), with the image I/O collaborators
abstracted away: the grid and its dimensions replace `load_image`, and the
mutated grid is returned instead of `save_image` (`none` when
`generate_message` raises). -/
def data_insert (g : Grid) (W H : Nat) (key data : List Nat) (method : String)
    (colours indexs : Option (List Nat)) (noise : Bool) (noiseOracle : Nat → Bool) :
    Option Grid :=
  let ck := generate_context key g W H
  let conf := build_object ck.2 method noise colours indexs
  let header := generate_header conf
  let ah := attach_header g ck.2 header ck.1
  let data_coords := generate_coords conf (W * H) ah.1
  match generate_message conf data data_coords noiseOracle with
  | Except.error _ => none
  | Except.ok binary_message => some (attach_data ah.2 conf binary_message data_coords)

/-- Read the bit at position `index` (0 = most significant) of channel `c` of
the pixel at `pos`: `readBit` of spec section 4.6. -/
def readBit (g : Grid) (pos : Nat × Nat) (c index : Nat) : Bool :=
  (integer_bin ((g pos).getD c 0)).getD index false

/-- Modelled from the spec: `extract_header` — its body in the source
(lines 181-183) is a bare `pass`.  Spec section 4.3: read the
least-significant bit of the channel chosen via the deterministic sample of
the three channels at each of the first 12 coordinates; bit 0 is the method
flag, bits 1-3 the channel bitmap, bits 4-11 the bit-position bitmap; fail
(`MalformedHeaderError`) when either recovered bitmap is empty.  Returns the
recovered configuration pieces and the coordinates with the consumed prefix
removed. -/
def extract_header (g : Grid) (key : Nat) (coords : List (Nat × Nat)) :
    Option (String × List Nat × List Nat × List (Nat × Nat)) :=
  let colours := (random_sample key [0, 1, 2] 12).flatten
  let bits := (List.range 12).map
    (fun i => readBit g (coords.getD i (0, 0)) (colours.getD i 0) 7)
  let method := if bits.getD 0 false then "random" else "all"
  let chans := (List.range 3).filter (fun c => bits.getD (1 + c) false)
  let idxs := (List.range 8).filter (fun j => bits.getD (4 + j) false)
  if chans = [] ∨ idxs = [] then none
  else some (method, chans, idxs, coords.drop 12)

/-- Modelled from the spec: `extract_message` and `parsePayload` — the source
body (lines 186-187) is a bare `pass`.  Spec section 4.5: read the bit at
every slot, take the first `bitLength(slotCount)` bits as the data length,
the next that many bits as the data, ignore the rest (padding), and decode
with `bitsToText`. -/
def extract_message (g : Grid) (data_coords : List (Nat × Nat × Nat × Nat)) :
    Option (List Nat) :=
  let bits := data_coords.map (fun s => readBit g (s.1, s.2.1) s.2.2.1 s.2.2.2)
  let w := bitLen data_coords.length
  let dataLen := int_from_bits (bits.take w)
  binary_conversion_text ((bits.drop w).take dataLen)

/-- Modelled from the spec: `data_extract` (src lines 204-211 call the
unimplemented stubs).  Control flow section 2: same key derivation, recover
the configuration from the header, rebuild the slot sequence from it, read
the payload back.  The header carries no noise flag (spec section 9), and
extraction never writes noise, so `noise = false` is used to rebuild the
configuration. -/
def data_extract (g : Grid) (W H : Nat) (key : List Nat) : Option (List Nat) :=
  let ck := generate_context key g W H
  match extract_header g ck.2 ck.1 with
  | none => none
  | some (method, chans, idxs, cut_coords) =>
    let conf := build_object ck.2 method false (some chans) (some idxs)
    let data_coords := generate_coords conf (W * H) cut_coords
    extract_message g data_coords

/-! ## Claim theorems -/

/-- C10: on a pixel grid whose 15 sampled bootstrap pixels all have channel
value zero (for example an all-zero image), `generate_context` returns derived
key `0` for every key text, so two runs with any two distinct keys produce the
same derived key: the derived key does not depend on the secret. -/
theorem spec_C10 (k1 k2 : List Nat) (g : Grid) (W H : Nat)
    (h1 : ∀ i < 15, pixelSum (g ((context_coords k1 W H).getD i (0, 0))) = 0)
    (h2 : ∀ i < 15, pixelSum (g ((context_coords k2 W H).getD i (0, 0))) = 0) :
    (generate_context k1 g W H).2 = 0 ∧ (generate_context k2 g W H).2 = 0 ∧
      (generate_context k1 g W H).2 = (generate_context k2 g W H).2 := by
  have hgen : ∀ k : List Nat,
      (∀ i < 15, pixelSum (g ((context_coords k W H).getD i (0, 0))) = 0) →
      (generate_context k g W H).2 = 0 := by
    intro k hk
    have hsum : ((((List.range 15).map
        (fun p => g ((context_coords k W H).getD p (0, 0)))).map pixelSum)).sum = 0 := by
      apply List.sum_eq_zero
      intro x hx
      simp only [List.map_map, List.mem_map, List.mem_range, Function.comp] at hx
      obtain ⟨p, hp, rfl⟩ := hx
      exact hk p hp
    simp only [generate_context]
    rw [hsum, mul_zero]
  exact ⟨hgen k1 h1, hgen k2 h2, by rw [hgen k1 h1, hgen k2 h2]⟩

/-- Witness for C10: a 4-by-4 all-zero image with the two distinct keys
`"k"` and `"BC"`. -/
theorem spec_C10_witness :
    (generate_context [107] (fun _ => [0, 0, 0]) 4 4).2 = 0 ∧
    (generate_context [66, 67] (fun _ => [0, 0, 0]) 4 4).2 = 0 ∧
    (generate_context [107] (fun _ => [0, 0, 0]) 4 4).2
      = (generate_context [66, 67] (fun _ => [0, 0, 0]) 4 4).2 :=
  spec_C10 [107] [66, 67] (fun _ => [0, 0, 0]) 4 4 (by decide) (by decide)

/-- C2 counterexample: at slot count 100 the length prefix produced by
`generate_message` is `len(integer_conversion(100,'binary')) = 8` bits, but
the number of bits needed to represent 100 in binary is 7: the spec's
`lengthPrefixWidth = bitLength(slotCount)` fails for slot counts below 256. -/
theorem spec_C2_counterexample :
    end_key_size 100 = 8 ∧ bitLen 100 = 7 ∧ 2 ^ 6 ≤ 100 ∧ 100 < 2 ^ 7 := by
  decide

/-- C2 (amended): the length prefix width equals `max 8 (bitLength slotCount)`
(with 1 for slot count 0), because `integer_conversion(.., 'binary')`
zero-fills to 8 characters; it equals `bitLength(slotCount)` exactly when the
slot count is at least 128, i.e. exactly when `bitLength(slotCount)` is at
least 8. -/
theorem spec_C2_amended (capacity : Nat) :
    end_key_size capacity = max 8 (max 1 (bitLen capacity)) ∧
    (end_key_size capacity = bitLen capacity ↔ 128 ≤ capacity) := by
  have hlen : end_key_size capacity = max 8 (max 1 (bitLen capacity)) := by
    rw [end_key_size]
    exact integer_bin_length capacity
  refine ⟨hlen, ?_⟩
  have h7 : bitLen capacity ≤ 7 ↔ capacity < 2 ^ 7 := bitLen_le_iff capacity 7
  rw [hlen]
  norm_num at h7
  omega

/-- Witness for C2 (amended), at slot count 200: the width is 8 and
`bitLength(200)` is also 8, so the two agree there. -/
theorem spec_C2_amended_witness :
    (end_key_size 200 = max 8 (max 1 (bitLen 200)) ∧
      (end_key_size 200 = bitLen 200 ↔ 128 ≤ 200)) :=
  spec_C2_amended 200

/-- C5: `generate_message` raises exactly when prefix width plus data bits
exceed the slot count, carrying the exact overage; a payload filling the
capacity exactly succeeds; every successful message starts with the length
prefix followed by the complete, untruncated data bits. -/
theorem spec_C5 (conf : Configuration) (data : List Nat)
    (coords : List (Nat × Nat × Nat × Nat)) (noiseOracle : Nat → Bool) :
    (∀ k, generate_message conf data coords noiseOracle = Except.error k ↔
      (coords.length < end_key_size coords.length + (binary_conversion_binary data).length ∧
        k = end_key_size coords.length + (binary_conversion_binary data).length
          - coords.length)) ∧
    (end_key_size coords.length + (binary_conversion_binary data).length = coords.length →
      generate_message conf data coords noiseOracle
        = Except.ok (zfill (end_key_size coords.length)
            (integer_bin (binary_conversion_binary data).length)
          ++ binary_conversion_binary data)) ∧
    (∀ msg, generate_message conf data coords noiseOracle = Except.ok msg →
      ∃ noise, msg = zfill (end_key_size coords.length)
          (integer_bin (binary_conversion_binary data).length)
        ++ binary_conversion_binary data ++ noise) := by
  by_cases hcap : coords.length
      < end_key_size coords.length + (binary_conversion_binary data).length
  · have hif : generate_message conf data coords noiseOracle
        = Except.error (end_key_size coords.length
            + (binary_conversion_binary data).length - coords.length) := by
      simp only [generate_message]
      rw [if_pos (by omega)]
    refine ⟨?_, ?_, ?_⟩
    · intro k
      rw [hif]
      constructor
      · intro hk
        injection hk.symm with hinj
        exact ⟨hcap, hinj⟩
      · intro hk
        rw [hk.2]
    · intro heq
      omega
    · intro msg hmsg
      rw [hif] at hmsg
      cases hmsg
  · have hif : generate_message conf data coords noiseOracle
        = Except.ok (zfill (end_key_size coords.length)
              (integer_bin (binary_conversion_binary data).length)
            ++ binary_conversion_binary data
            ++ (if conf.NOISE then (List.range (coords.length
                  - (end_key_size coords.length
                    + (binary_conversion_binary data).length))).map noiseOracle
                else [])) := by
      simp only [generate_message]
      rw [if_neg (by omega)]
    refine ⟨?_, ?_, ?_⟩
    · intro k
      rw [hif]
      constructor
      · intro hk
        cases hk
      · intro hk
        omega
    · intro heq
      rw [hif, heq]
      have hz : coords.length - coords.length = 0 := by omega
      rw [heq] at hif
      simp [hz]
    · intro msg hmsg
      rw [hif] at hmsg
      injection hmsg with hinj
      exact ⟨_, hinj.symm⟩

/-- Witness for C5: the default configuration, payload `"hi"` (16 data bits),
24 slots (prefix width 8, so the total exactly fills the capacity), and 23
slots (one bit short, error, overage 1). -/
theorem spec_C5_witness :
    generate_message (build_object 0 "all" false none none) [104, 105]
        ((List.range 24).map (fun i => (i, 0, 0, 7))) (fun _ => false)
      = Except.ok (zfill (end_key_size 24) (integer_bin 16)
          ++ binary_conversion_binary [104, 105]) ∧
    generate_message (build_object 0 "all" false none none) [104, 105]
        ((List.range 23).map (fun i => (i, 0, 0, 7))) (fun _ => false)
      = Except.error 1 := by
  constructor
  · have h := (spec_C5 (build_object 0 "all" false none none) [104, 105]
      ((List.range 24).map (fun i => (i, 0, 0, 7))) (fun _ => false)).2.1
    have hlen : ((List.range 24).map (fun i => (i, 0, 0, 7)
        : Nat → Nat × Nat × Nat × Nat)).length = 24 := by decide
    rw [hlen] at h
    have hbits : (binary_conversion_binary [104, 105]).length = 16 := by decide
    rw [hbits] at h
    exact h (by decide)
  · have h := (spec_C5 (build_object 0 "all" false none none) [104, 105]
      ((List.range 23).map (fun i => (i, 0, 0, 7))) (fun _ => false)).1 1
    apply h.mpr
    constructor
    · decide
    · decide

/-! ### Presence-table lemmas for the header -/

theorem set_true_getD (t : List Bool) (c j : Nat) (hj : j < t.length) :
    (t.set c true).getD j false = (t.getD j false || decide (j = c)) := by
  by_cases hc : c = j
  · subst hc
    rw [List.getD_eq_getElem?_getD, List.getElem?_set_eq_of_lt true hj]
    simp
  · rw [List.getD_eq_getElem?_getD, List.getElem?_set_ne hc,
      ← List.getD_eq_getElem?_getD]
    have : decide (j = c) = false := by
      simp
      omega
    rw [this]
    simp

theorem table_foldl_getD (cs : List Nat) (t : List Bool) (j : Nat) (hj : j < t.length) :
    (cs.foldl (fun t i => t.set i true) t).getD j false
      = (t.getD j false || decide (j ∈ cs)) := by
  induction cs generalizing t with
  | nil => simp
  | cons c cs ih =>
    rw [List.foldl_cons, ih (t.set c true) (by rw [List.length_set]; exact hj),
      set_true_getD t c j hj]
    have hdec : decide (j ∈ c :: cs) = (decide (j = c) || decide (j ∈ cs)) := by
      by_cases h1 : j = c <;> by_cases h2 : j ∈ cs <;> simp [h1, h2]
    rw [hdec, Bool.or_assoc]

theorem replicate_false_getD (n c : Nat) :
    (List.replicate n false).getD c false = false := by
  induction n generalizing c with
  | zero => rfl
  | succ n ih =>
    cases c with
    | zero => rfl
    | succ c =>
      rw [List.replicate_succ, List.getD_cons_succ]
      exact ih c

theorem table_foldl_length (cs : List Nat) (t : List Bool) :
    (cs.foldl (fun t i => t.set i true) t).length = t.length := by
  induction cs generalizing t with
  | nil => rfl
  | cons c cs ih =>
    rw [List.foldl_cons, ih (t.set c true), List.length_set]

/-- C6: `generate_header` returns exactly 12 bits; bit 0 is 1 iff the method
is `"random"`, bits 1-3 are the presence bitmap over the three channels in
fixed order, bits 4-11 the presence bitmap over bit positions 0-7 in fixed
order. -/
theorem spec_C6 (key : Nat) (method : String) (noise : Bool)
    (colours indexs : List Nat)
    (hc : ∀ c ∈ colours, c < 3) (hi : ∀ i ∈ indexs, i < 8)
    (hcne : colours ≠ []) (hine : indexs ≠ []) :
    (generate_header (build_object key method noise (some colours) (some indexs))).length
        = 12 ∧
    (generate_header (build_object key method noise (some colours)
        (some indexs))).getD 0 false = decide (method = "random") ∧
    (∀ c < 3, (generate_header (build_object key method noise (some colours)
        (some indexs))).getD (1 + c) false = decide (c ∈ colours)) ∧
    (∀ j < 8, (generate_header (build_object key method noise (some colours)
        (some indexs))).getD (4 + j) false = decide (j ∈ indexs)) := by
  have hconf : build_object key method noise (some colours) (some indexs)
      = { COLOURS := colours.dedup, INDEXS := indexs.dedup,
          VOLUME := if method = "all" then colours.length * indexs.length
            else indexs.length,
          METHOD := method, NOISE := noise, KEY := key } := rfl
  rw [hconf]
  simp only [generate_header]
  set ct := colours.dedup.foldl (fun t i => t.set i true) (List.replicate 3 false) with hct
  set it := indexs.dedup.foldl (fun t i => t.set i true) (List.replicate 8 false) with hit
  have hctlen : ct.length = 3 := by
    rw [hct, table_foldl_length, List.length_replicate]
  have hitlen : it.length = 8 := by
    rw [hit, table_foldl_length, List.length_replicate]
  refine ⟨?_, ?_, ?_, ?_⟩
  · simp [hctlen, hitlen]
  · by_cases hm : method = "random" <;> simp [hm]
  · intro c hcc
    rw [Nat.add_comm 1 c, List.getD_cons_succ]
    have happ : (ct ++ it).getD c false = ct.getD c false := by
      rw [List.getD_eq_getElem?_getD, List.getElem?_append, if_pos (by omega),
        ← List.getD_eq_getElem?_getD]
    rw [happ, hct, table_foldl_getD colours.dedup (List.replicate 3 false) c
      (by simp; omega), replicate_false_getD]
    simp [List.mem_dedup]
  · intro j hj
    have h4 : 4 + j = (3 + j) + 1 := by omega
    rw [h4, List.getD_cons_succ]
    have happ : (ct ++ it).getD (3 + j) false = it.getD j false := by
      rw [List.getD_eq_getElem?_getD, List.getElem?_append, if_neg (by omega), hctlen]
      have h3 : 3 + j - 3 = j := by omega
      rw [h3, ← List.getD_eq_getElem?_getD]
    rw [happ, hit, table_foldl_getD indexs.dedup (List.replicate 8 false) j
      (by simp; omega), replicate_false_getD]
    simp [List.mem_dedup]

/-- Witness for C6: method `"random"`, channels red and blue, bit positions
6 and 7. -/
theorem spec_C6_witness :
    (generate_header (build_object 5 "random" false (some [0, 2])
        (some [6, 7]))).length = 12 ∧
    (generate_header (build_object 5 "random" false (some [0, 2])
        (some [6, 7]))).getD 0 false = decide (("random" : String) = "random") ∧
    (∀ c < 3, (generate_header (build_object 5 "random" false (some [0, 2])
        (some [6, 7]))).getD (1 + c) false = decide (c ∈ [0, 2])) ∧
    (∀ j < 8, (generate_header (build_object 5 "random" false (some [0, 2])
        (some [6, 7]))).getD (4 + j) false = decide (j ∈ [6, 7])) :=
  spec_C6 5 "random" false [0, 2] [6, 7] (by decide) (by decide)
    (by decide) (by decide)

/-- C4 counterexample: the 1-bit input `"0"` has bit length not a multiple of
8, yet `binary_conversion(.., 'text')` silently returns the empty text instead
of failing: `int('0', 2) = 0` fits in `1 // 8 = 0` bytes and `b''` decodes. -/
theorem spec_C4_counterexample :
    binary_conversion_text [false] = some [] ∧ ([false] : List Bool).length % 8 = 1 := by
  constructor
  · rfl
  · decide

/-- C4 (amended): on a non-empty bit string, the decoder fails exactly when
one of the leading `length mod 8` bits is `1` (the `to_bytes` overflow) or the
packed `length / 8` bytes are not valid UTF-8; a bit length that is not a
multiple of 8 does not by itself cause a failure — leading zero bits are
silently discarded (and the empty input always fails). -/
theorem spec_C4_amended (data : List Bool) (hne : data ≠ []) :
    binary_conversion_text data = none ↔
      ((data.take (data.length % 8)).any (fun b => b) = true ∨
        utf8Decode (bytesOfNat (data.length / 8)
          (int_from_bits (data.drop (data.length % 8)))) = none) :=
  binary_conversion_text_none_iff data hne

/-- Witness for C4 (amended): the 9-bit input `"100000000"`, whose leading bit
is set, fails. -/
theorem spec_C4_amended_witness :
    ([true, false, false, false, false, false, false, false, false]
        : List Bool) ≠ [] ∧
    (binary_conversion_text [true, false, false, false, false, false, false,
        false, false] = none ↔
      (([true, false, false, false, false, false, false, false, false]
          : List Bool).take ([true, false, false, false, false, false, false,
          false, false].length % 8)).any (fun b => b) = true ∨
        utf8Decode (bytesOfNat (([true, false, false, false, false, false,
          false, false, false] : List Bool).length / 8)
          (int_from_bits (([true, false, false, false, false, false, false,
            false, false] : List Bool).drop ([true, false, false, false,
            false, false, false, false, false].length % 8)))) = none) :=
  ⟨by decide, spec_C4_amended
    [true, false, false, false, false, false, false, false, false] (by decide)⟩

/-- C8 counterexample: on the empty text, `binary_conversion` to binary gives
the empty bit string, and converting that back to text fails
(`int('', 2)` raises) — the round-trip does not hold for every text string. -/
theorem spec_C8_counterexample :
    binary_conversion_binary [] = [] ∧
      binary_conversion_text (binary_conversion_binary []) = none := by
  constructor
  · rfl
  · rfl

/-- C8 (amended): for every non-empty text of Unicode scalar values, decoding
the encoding is the identity:
`binary_conversion(binary_conversion(text, 'binary'), 'text') == text`. -/
theorem spec_C8_amended (cs : List Nat) (h : ∀ c ∈ cs, ValidScalar c)
    (hne : cs ≠ []) :
    binary_conversion_text (binary_conversion_binary cs) = some cs :=
  binary_conversion_roundtrip cs h hne

/-- Witness for C8 (amended): the text `"h¡"` (code points 104 and 161, one
ASCII byte and one two-byte character). -/
theorem spec_C8_amended_witness :
    (∀ c ∈ [104, 161], ValidScalar c) ∧ ([104, 161] : List Nat) ≠ [] ∧
      binary_conversion_text (binary_conversion_binary [104, 161])
        = some [104, 161] :=
  ⟨by decide, by decide, spec_C8_amended [104, 161] (by decide) (by decide)⟩

/-! ### Frame lemmas for the pixel writers -/

theorem integer_bin_int_from_bits (l : List Bool) (h : l.length = 8) :
    integer_bin (int_from_bits l) = l := by
  have hlt : int_from_bits l < 256 := by
    have := int_from_bits_lt l
    rw [h] at this
    norm_num at this
    exact this
  rw [integer_bin_eq_toBitsLen _ hlt, ← h, toBitsLen_int_from_bits]

theorem integer_bin_length_of_lt (v : Nat) (h : v < 256) :
    (integer_bin v).length = 8 := by
  rw [integer_bin_eq_toBitsLen v h, toBitsLen_length]

theorem attach_data_step_other_pixel (g : Grid) (s : Nat × Nat × Nat × Nat)
    (b : Bool) (q : Nat × Nat) (h : q ≠ (s.1, s.2.1)) :
    attach_data_step g s b q = g q := by
  simp only [attach_data_step, putpixel]
  rw [if_neg h]

theorem attach_data_go_frame (msg : List Bool) (i : Nat)
    (slots : List (Nat × Nat × Nat × Nat)) (g : Grid) (q : Nat × Nat)
    (h : ∀ s ∈ slots, (s.1, s.2.1) ≠ q) :
    attach_data_go msg i slots g q = g q := by
  induction slots generalizing i g with
  | nil => rfl
  | cons s rest ih =>
    rw [attach_data_go, ih (i + 1) _ (fun x hx => h x (List.mem_cons_of_mem s hx)),
      attach_data_step_other_pixel]
    exact fun hq => h s (List.mem_cons_self s rest) hq.symm

theorem attach_header_go_frame (colours : List Nat) (header : List Bool) (i : Nat)
    (positions : List (Nat × Nat)) (g : Grid) (q : Nat × Nat)
    (h : ∀ pos ∈ positions, pos ≠ q) :
    attach_header_go colours header i positions g q = g q := by
  induction positions generalizing i g with
  | nil => rfl
  | cons pos rest ih =>
    rw [attach_header_go, ih (i + 1) _ (fun x hx => h x (List.mem_cons_of_mem pos hx))]
    simp only [attach_header_step, putpixel]
    rw [if_neg (fun hq => h pos (List.mem_cons_self pos rest) hq.symm)]

/-- C9: a slot write of `attach_data` sets only the targeted bit of the
targeted channel byte to the message bit — the 8-character binary string of
the new byte is the old one with only position `index` replaced — while the
other channels of that pixel and every pixel not targeted by any written slot
are left unchanged. -/
theorem spec_C9 (g : Grid) (x y ch index : Nat) (b : Bool)
    (conf : Configuration) (msg : List Bool)
    (coords : List (Nat × Nat × Nat × Nat))
    (hch : ch < 3) (hidx : index < 8) (hlen : (g (x, y)).length = 3)
    (hbyte : (g (x, y)).getD ch 0 < 256) :
    (integer_bin ((attach_data_step g (x, y, ch, index) b (x, y)).getD ch 0)
        = (integer_bin ((g (x, y)).getD ch 0)).set index b) ∧
    (∀ ch2, ch2 ≠ ch → (attach_data_step g (x, y, ch, index) b (x, y)).getD ch2 0
        = (g (x, y)).getD ch2 0) ∧
    (∀ q, q ≠ (x, y) → attach_data_step g (x, y, ch, index) b q = g q) ∧
    (∀ q, (∀ s ∈ (if conf.NOISE = false then coords.take msg.length else coords),
        (s.1, s.2.1) ≠ q) → attach_data g conf msg coords q = g q) := by
  have hstep : attach_data_step g (x, y, ch, index) b (x, y)
      = (g (x, y)).set ch (int_from_bits
          ((integer_bin ((g (x, y)).getD ch 0)).set index b)) := by
    simp only [attach_data_step, putpixel]
    simp
  refine ⟨?_, ?_, ?_, ?_⟩
  · rw [hstep]
    have hget : ((g (x, y)).set ch (int_from_bits
        ((integer_bin ((g (x, y)).getD ch 0)).set index b))).getD ch 0
        = int_from_bits ((integer_bin ((g (x, y)).getD ch 0)).set index b) := by
      rw [List.getD_eq_getElem?_getD, List.getElem?_set_eq_of_lt _ (by omega)]
      rfl
    rw [hget, integer_bin_int_from_bits]
    rw [List.length_set, integer_bin_length_of_lt _ hbyte]
  · intro ch2 hne
    rw [hstep, List.getD_eq_getElem?_getD,
      List.getElem?_set_ne (fun hc => hne hc.symm), ← List.getD_eq_getElem?_getD]
  · intro q hq
    exact attach_data_step_other_pixel g (x, y, ch, index) b q (by
      intro hc
      exact hq hc)
  · intro q hq
    simp only [attach_data]
    exact attach_data_go_frame msg 0 _ g q hq

/-- An all-white test image. -/
def whiteGrid : Grid := fun _ => [255, 255, 255]

/-- Witness for C9: an all-white image, writing bit 0 into position 7 of the
green channel of pixel `(1, 0)`, with a two-slot plan. -/
theorem spec_C9_witness :
    (integer_bin ((attach_data_step whiteGrid (1, 0, 1, 7) false (1, 0)).getD 1 0)
        = (integer_bin ((whiteGrid (1, 0)).getD 1 0)).set 7 false) ∧
    (∀ ch2, ch2 ≠ 1 → (attach_data_step whiteGrid (1, 0, 1, 7) false (1, 0)).getD ch2 0
        = (whiteGrid (1, 0)).getD ch2 0) ∧
    (∀ q, q ≠ (1, 0) → attach_data_step whiteGrid (1, 0, 1, 7) false q = whiteGrid q) ∧
    (∀ q, (∀ s ∈ (if (build_object 0 "all" false none none).NOISE = false
          then ([(1, 0, 1, 7), (0, 0, 0, 6)] : List (Nat × Nat × Nat × Nat)).take
            ([false, true] : List Bool).length
          else [(1, 0, 1, 7), (0, 0, 0, 6)]), (s.1, s.2.1) ≠ q) →
        attach_data whiteGrid (build_object 0 "all" false none none)
          [false, true] [(1, 0, 1, 7), (0, 0, 0, 6)] q = whiteGrid q) :=
  spec_C9 whiteGrid 1 0 1 7 false (build_object 0 "all" false none none)
    [false, true] [(1, 0, 1, 7), (0, 0, 0, 6)] (by decide) (by decide)
    (by decide) (by decide)

/-- C3 (code bug): `attach_header` does remove the first 12 coordinates from
the returned list, but because of `header_coords = coords[:length - 1]` it
writes only the first 11 header bits — the pixel at the 12th consumed
coordinate is left untouched, so the 12th header bit is never embedded. -/
theorem spec_C3 (g : Grid) (key : Nat) (header : List Bool)
    (coords : List (Nat × Nat)) (hh : header.length = 12)
    (hlen : 12 ≤ coords.length) (hnd : (coords.take 12).Nodup) :
    (attach_header g key header coords).1 = coords.drop 12 ∧
    (attach_header g key header coords).2 (coords.getD 11 (0, 0))
      = g (coords.getD 11 (0, 0)) := by
  have h11 : 11 < coords.length := by omega
  have hx : coords.getD 11 (0, 0) ∉ coords.take 11 := by
    have htake : coords.take 12 = coords.take 11 ++ [coords[11]] := by
      rw [List.take_succ, List.getElem?_eq_getElem h11]
      rfl
    rw [htake, List.nodup_append] at hnd
    intro hc
    rw [List.getD_eq_getElem coords (0, 0) h11] at hc
    exact hnd.2.2 hc (List.mem_singleton_self _)
  constructor
  · simp only [attach_header, hh]
  · simp only [attach_header, hh]
    apply attach_header_go_frame
    intro pos hpos
    intro hc
    apply hx
    rw [← hc]
    have h1112 : (12 : Nat) - 1 = 11 := by omega
    rw [h1112] at hpos
    exact hpos

/-- Witness for C3: an all-white 4-by-4 image and a 12-bit header whose last
bit is `1`; the pixel at the 12th coordinate keeps all channels `255`. -/
theorem spec_C3_witness :
    (attach_header whiteGrid 7 [false, true, false, false, false, false, false,
        false, false, false, false, true] (productWH 4 4)).1
      = (productWH 4 4).drop 12 ∧
    (attach_header whiteGrid 7 [false, true, false, false, false, false, false,
        false, false, false, false, true] (productWH 4 4)).2
        ((productWH 4 4).getD 11 (0, 0))
      = whiteGrid ((productWH 4 4).getD 11 (0, 0)) :=
  spec_C3 whiteGrid 7 [false, true, false, false, false, false, false, false,
    false, false, false, true] (productWH 4 4) (by decide) (by decide) (by decide)

/-! ### Slot planner lemmas -/

theorem flatMap_const_length (l : List α) (f : α → List β) (k : Nat)
    (h : ∀ a ∈ l, (f a).length = k) : (l.flatMap f).length = l.length * k := by
  induction l with
  | nil => simp
  | cons a t ih =>
    rw [List.flatMap_cons, List.length_append, h a (List.mem_cons_self a t),
      ih (fun x hx => h x (List.mem_cons_of_mem a hx)), List.length_cons]
    ring

theorem generate_coords_go_not_random (method : String) (hm : ¬(method = "random"))
    (chosen : List (List Nat)) (colours indexs : List Nat) (i : Nat)
    (coords : List (Nat × Nat)) :
    generate_coords_go method chosen colours indexs i coords
      = coords.flatMap (fun p => colours.flatMap fun c =>
          indexs.map fun index => (p.1, p.2, c, index)) := by
  induction coords generalizing i with
  | nil => rfl
  | cons p ps ih =>
    rw [generate_coords_go, if_neg hm, ih (i + 1), List.flatMap_cons]

theorem generate_coords_go_random_length (chosen : List (List Nat))
    (colours indexs : List Nat) (coords : List (Nat × Nat)) (i : Nat)
    (h : ∀ j < coords.length, (chosen.getD (i + j) []).length = 1) :
    (generate_coords_go "random" chosen colours indexs i coords).length
      = coords.length * indexs.length := by
  induction coords generalizing i with
  | nil => simp [generate_coords_go]
  | cons p ps ih =>
    rw [generate_coords_go, if_pos rfl, List.length_append]
    have h0 : (chosen.getD i []).length = 1 := by
      have := h 0 (by simp)
      simpa using this
    obtain ⟨c, hc⟩ := List.length_eq_one.mp h0
    rw [hc]
    have hflat : (([c] : List Nat).flatMap fun c =>
        indexs.map fun index => (p.1, p.2, c, index)).length = indexs.length := by
      simp
    rw [hflat, ih (i + 1) (fun j hj => by
      have := h (j + 1) (by simp; omega)
      have harith : i + (j + 1) = i + 1 + j := by omega
      rwa [harith] at this), List.length_cons]
    ring

/-- C7: the slot plan.  With method `"all"`, `generate_coords` returns a
permutation of one slot per coordinate per selected channel per selected
bit position, of length `len(coords) * n_channels * n_positions`.  With method
`"random"`, the per-coordinate channel is a deterministically sampled
singleton drawn from the selected channels (its value agreeing with a sample
stream of any sufficient length), the result is a permutation of the slots so
built, and the capacity is `len(coords) * n_positions`. -/
theorem spec_C7 (conf : Configuration) (size_pixels : Nat)
    (coords : List (Nat × Nat)) :
    (conf.METHOD = "all" →
      List.Perm (generate_coords conf size_pixels coords)
        (coords.flatMap fun p => conf.COLOURS.flatMap fun c =>
          conf.INDEXS.map fun index => (p.1, p.2, c, index)) ∧
      (generate_coords conf size_pixels coords).length
        = coords.length * (conf.COLOURS.length * conf.INDEXS.length)) ∧
    (conf.METHOD = "random" → coords.length ≤ size_pixels → conf.COLOURS ≠ [] →
      (∀ i < coords.length, ∃ c ∈ conf.COLOURS,
        (random_sample conf.KEY conf.COLOURS size_pixels).getD i [] = [c]) ∧
      (∀ i < coords.length,
        (random_sample conf.KEY conf.COLOURS size_pixels).getD i []
          = (random_sample conf.KEY conf.COLOURS coords.length).getD i []) ∧
      List.Perm (generate_coords conf size_pixels coords)
        (generate_coords_go "random"
          (random_sample conf.KEY conf.COLOURS size_pixels)
          conf.COLOURS conf.INDEXS 0 coords) ∧
      (generate_coords conf size_pixels coords).length
        = coords.length * conf.INDEXS.length) := by
  constructor
  · intro hm
    have hmr : ¬(conf.METHOD = "random") := by
      rw [hm]
      decide
    have hgo : generate_coords conf size_pixels coords
        = shuffle conf.KEY (coords.flatMap fun p => conf.COLOURS.flatMap fun c =>
            conf.INDEXS.map fun index => (p.1, p.2, c, index)) := by
      simp only [generate_coords]
      rw [generate_coords_go_not_random conf.METHOD hmr]
    constructor
    · rw [hgo]
      exact shuffle_perm _ _
    · rw [hgo, shuffle_length]
      apply flatMap_const_length
      intro p hp
      apply flatMap_const_length
      intro c hcc
      simp
  · intro hm hsz hcne
    obtain ⟨o, os, hoos⟩ := List.exists_cons_of_ne_nil hcne
    have hsing : ∀ i < coords.length, ∃ c ∈ conf.COLOURS,
        (random_sample conf.KEY conf.COLOURS size_pixels).getD i [] = [c] := by
      intro i hi
      rw [hoos]
      exact random_sample_singleton conf.KEY o os size_pixels i (by omega)
    have hgo : generate_coords conf size_pixels coords
        = shuffle conf.KEY (generate_coords_go "random"
            (random_sample conf.KEY conf.COLOURS size_pixels)
            conf.COLOURS conf.INDEXS 0 coords) := by
      simp only [generate_coords]
      rw [hm]
      simp
    refine ⟨hsing, ?_, ?_, ?_⟩
    · intro i hi
      exact random_sample_getD_agree conf.KEY conf.COLOURS size_pixels
        coords.length i (by omega) hi
    · rw [hgo]
      exact shuffle_perm _ _
    · rw [hgo, shuffle_length]
      apply generate_coords_go_random_length
      intro j hj
      obtain ⟨c, _, hc⟩ := hsing j hj
      rw [Nat.zero_add, hc]
      rfl

/-- Witness for C7: a three-coordinate plan with method `"random"`, channels
red and blue, positions 6 and 7, sample length 5. -/
theorem spec_C7_witness :
    ((build_object 3 "random" false (some [0, 2]) (some [6, 7])).METHOD = "all" →
      List.Perm (generate_coords (build_object 3 "random" false (some [0, 2])
          (some [6, 7])) 5 [(0, 0), (1, 1), (2, 0)])
        ([(0, 0), (1, 1), (2, 0)].flatMap fun p =>
          (build_object 3 "random" false (some [0, 2]) (some [6, 7])).COLOURS.flatMap
            fun c => (build_object 3 "random" false (some [0, 2])
              (some [6, 7])).INDEXS.map fun index => (p.1, p.2, c, index)) ∧
      (generate_coords (build_object 3 "random" false (some [0, 2])
          (some [6, 7])) 5 [(0, 0), (1, 1), (2, 0)]).length
        = ([(0, 0), (1, 1), (2, 0)] : List (Nat × Nat)).length
          * ((build_object 3 "random" false (some [0, 2]) (some [6, 7])).COLOURS.length
            * (build_object 3 "random" false (some [0, 2]) (some [6, 7])).INDEXS.length)) ∧
    ((build_object 3 "random" false (some [0, 2]) (some [6, 7])).METHOD = "random" →
      ([(0, 0), (1, 1), (2, 0)] : List (Nat × Nat)).length ≤ 5 →
      (build_object 3 "random" false (some [0, 2]) (some [6, 7])).COLOURS ≠ [] →
      (∀ i < ([(0, 0), (1, 1), (2, 0)] : List (Nat × Nat)).length,
        ∃ c ∈ (build_object 3 "random" false (some [0, 2]) (some [6, 7])).COLOURS,
        (random_sample (build_object 3 "random" false (some [0, 2])
            (some [6, 7])).KEY (build_object 3 "random" false (some [0, 2])
            (some [6, 7])).COLOURS 5).getD i [] = [c]) ∧
      (∀ i < ([(0, 0), (1, 1), (2, 0)] : List (Nat × Nat)).length,
        (random_sample (build_object 3 "random" false (some [0, 2])
            (some [6, 7])).KEY (build_object 3 "random" false (some [0, 2])
            (some [6, 7])).COLOURS 5).getD i []
          = (random_sample (build_object 3 "random" false (some [0, 2])
              (some [6, 7])).KEY (build_object 3 "random" false (some [0, 2])
              (some [6, 7])).COLOURS
              ([(0, 0), (1, 1), (2, 0)] : List (Nat × Nat)).length).getD i []) ∧
      List.Perm (generate_coords (build_object 3 "random" false (some [0, 2])
          (some [6, 7])) 5 [(0, 0), (1, 1), (2, 0)])
        (generate_coords_go "random"
          (random_sample (build_object 3 "random" false (some [0, 2])
            (some [6, 7])).KEY (build_object 3 "random" false (some [0, 2])
            (some [6, 7])).COLOURS 5)
          (build_object 3 "random" false (some [0, 2]) (some [6, 7])).COLOURS
          (build_object 3 "random" false (some [0, 2]) (some [6, 7])).INDEXS 0
          [(0, 0), (1, 1), (2, 0)]) ∧
      (generate_coords (build_object 3 "random" false (some [0, 2])
          (some [6, 7])) 5 [(0, 0), (1, 1), (2, 0)]).length
        = ([(0, 0), (1, 1), (2, 0)] : List (Nat × Nat)).length
          * (build_object 3 "random" false (some [0, 2]) (some [6, 7])).INDEXS.length) :=
  spec_C7 (build_object 3 "random" false (some [0, 2]) (some [6, 7])) 5
    [(0, 0), (1, 1), (2, 0)]

/-- An all-zero test image. -/
def zeroGrid : Grid := fun _ => [0, 0, 0]

set_option maxHeartbeats 4000000 in
/-- C1 (code bug): the insert/extract round-trip fails.  On an 8-by-4 all-zero
image with key `"k"`, payload `"a"`, method `"all"`, default channels and bit
positions and no noise, insertion succeeds, but extraction (modelled from the
spec, since `extract_header`/`extract_message` are unimplemented stubs) with
the same key returns the empty text instead of `"a"`: `attach_header` wrote
only 11 of the 12 header bits, so the recovered bit-position bitmap has
position 7 cleared and the slot plan no longer matches the embedder's. -/
theorem spec_C1 :
    (data_insert zeroGrid 8 4 [107] [97] "all" none none false
        (fun _ => false)).bind (fun g2 => data_extract g2 8 4 [107])
      = some ([] : List Nat) ∧
    (data_insert zeroGrid 8 4 [107] [97] "all" none none false
        (fun _ => false)).bind (fun g2 => data_extract g2 8 4 [107])
      ≠ some ([97] : List Nat) := by
  have h : (data_insert zeroGrid 8 4 [107] [97] "all" none none false
      (fun _ => false)).bind (fun g2 => data_extract g2 8 4 [107])
      = some ([] : List Nat) := by decide
  refine ⟨h, ?_⟩
  rw [h]
  decide
